import Mathlib

/-!
# Jalsaat — Client Reconciliation & Financial Aggregation Engine

A shallow embedding, in Lean 4, of the reconciliation and financial
aggregation logic of the Jalsaat event-management application:

* `withFinancials` / `eventFinancials` — per-event revenue / cost /
  profit / margin derivation (`components/FinancialStudio.tsx`);
* `commissionSummaryFor` / `commissionData` — per-salesperson commission
  roll-up (`components/FinancialStudio.tsx`);
* `calculateMatchScore` / `findBestMatch` / `findUnresolved` — fuzzy
  client-name matching and the unresolved-events pass
  (`src/components/ServiceDetailModal.tsx`, `ClientValidationModal`);
* `handleLink` / `handleCreate` — the resolution actions applied by the
  external state owner;
* `eventCmp` / `serviceCmp` / `requestSort` — the list-view sorting
  policy.

Modelling conventions: JavaScript numbers are embedded as `ℚ` (the code
never relies on float rounding; the `NaN`-avoidance guards of the source
become the explicit `Option`-coercions and zero-revenue guard below);
possibly-`undefined` numeric fields are `Option ℚ`; strings are Lean
`String`s, manipulated character-wise through `List Char` with
ASCII-faithful `toLower` / whitespace semantics, matching the ASCII data
the application handles.
-/

namespace Jalsaat

/-! ## Data model (spec §3; `types.ts` interfaces as used by the code) -/

/-- One `cost_tracker` entry.  Numeric fields may be `undefined` in the
source data, hence `Option ℚ`. -/
structure LineItem where
  client_price_sar : Option ℚ
  unit_cost_sar : Option ℚ
  quantity : Option ℚ
  deriving DecidableEq

/-- An event record, restricted to the fields the specified engine reads. -/
structure EventItem where
  eventId : String
  name : String
  clientName : String
  clientContact : String
  location : String
  salespersonId : String
  commissionRate : Option ℚ
  commissionPaid : Bool
  cost_tracker : Option (List LineItem)
  deriving DecidableEq

/-- A canonical client record, restricted to the fields the engine reads. -/
structure Client where
  id : String
  companyName : String
  primaryContactName : String
  deriving DecidableEq

/-- A user record; `role` is one of `Admin`, `Sales`, `Operations`. -/
structure User where
  userId : String
  name : String
  role : String
  commissionRate : Option ℚ
  deriving DecidableEq

/-! ## FinancialAggregator (`components/FinancialStudio.tsx`) -/

/-- JavaScript `x || 0` on a possibly-`undefined` numeric field:
`undefined` (and `0` itself) become `0`. -/
def orZero (x : Option ℚ) : ℚ := x.getD 0

/-- The result shape of the per-event derivation `{...event, revenue,
cost, profit, margin}`: every input field (in `base`) plus the four
derived numbers. -/
structure FinEvent where
  base : EventItem
  revenue : ℚ
  cost : ℚ
  profit : ℚ
  margin : ℚ
  deriving DecidableEq

/-- The body of `eventFinancials`' `map` (FinancialStudio.tsx lines
50–54): `revenue = Σ (client_price_sar || 0) * (quantity || 0)` and
`cost = Σ (unit_cost_sar || 0) * (quantity || 0)` over
`event.cost_tracker || []`, as left folds exactly like the source's
`reduce`; `profit = revenue - cost`;
`margin = revenue > 0 ? profit / revenue * 100 : 0`. -/
def withFinancials (event : EventItem) : FinEvent :=
  let items := event.cost_tracker.getD []
  let revenue := items.foldl
    (fun sum item => sum + orZero item.client_price_sar * orZero item.quantity) 0
  let cost := items.foldl
    (fun sum item => sum + orZero item.unit_cost_sar * orZero item.quantity) 0
  let profit := revenue - cost
  let margin := if 0 < revenue then profit / revenue * 100 else 0
  ⟨event, revenue, cost, profit, margin⟩

/-- The map `eventFinancials` (FinancialStudio.tsx line 48): derive financials
for every event. -/
def eventFinancials (events : List EventItem) : List FinEvent :=
  events.map withFinancials

/-- Revenue as the specification words it: the sum of
`client_price_sar * quantity` over the cost tracker, with missing
numeric fields read as 0 and a missing tracker as the empty list. -/
def specRevenue (event : EventItem) : ℚ :=
  ((event.cost_tracker.getD []).map
    (fun item => orZero item.client_price_sar * orZero item.quantity)).sum

/-- Cost as the specification words it: the sum of
`unit_cost_sar * quantity` over the cost tracker. -/
def specCost (event : EventItem) : ℚ :=
  ((event.cost_tracker.getD []).map
    (fun item => orZero item.unit_cost_sar * orZero item.quantity)).sum

/-- A left fold accumulating `+ f x` starting from `a` is `a` plus the
sum of the mapped list. -/
theorem foldl_add_eq_sum {α : Type} (f : α → ℚ) (l : List α) (a : ℚ) :
    l.foldl (fun sum x => sum + f x) a = a + (l.map f).sum := by
  induction l generalizing a with
  | nil => simp
  | cons x xs ih => simp [List.foldl, ih, add_assoc]

/-- Single-line-item event used by the concrete spec examples. -/
def exampleEvent : EventItem :=
  { eventId := "e1", name := "Gala", clientName := "Acme", clientContact := "TBD",
    location := "Riyadh", salespersonId := "u_sales", commissionRate := none,
    commissionPaid := false,
    cost_tracker := some [⟨some 100, some 60, some 2⟩] }

/-- Event with an empty cost tracker. -/
def emptyTrackerEvent : EventItem :=
  { exampleEvent with eventId := "e2", cost_tracker := some [] }

/-- C1: `withFinancials` returns `revenue` = Σ `client_price_sar * quantity`
and `cost` = Σ `unit_cost_sar * quantity` over the cost tracker, with
missing numeric fields (and a missing tracker) coerced to 0 / empty,
`profit = revenue - cost`, and `margin = (profit / revenue) * 100` when
`revenue > 0`, else `0`; the single item
`{client_price_sar:100, unit_cost_sar:60, quantity:2}` yields
`revenue=200, cost=120, profit=80, margin=40`, and an empty tracker
yields margin `0`. -/
theorem withFinancials_spec :
    (∀ event : EventItem,
      (withFinancials event).revenue = specRevenue event ∧
      (withFinancials event).cost = specCost event ∧
      (withFinancials event).profit = specRevenue event - specCost event ∧
      (withFinancials event).margin =
        (if 0 < specRevenue event
         then (specRevenue event - specCost event) / specRevenue event * 100
         else 0)) ∧
    (withFinancials exampleEvent).revenue = 200 ∧
    (withFinancials exampleEvent).cost = 120 ∧
    (withFinancials exampleEvent).profit = 80 ∧
    (withFinancials exampleEvent).margin = 40 ∧
    (withFinancials emptyTrackerEvent).margin = 0 := by
  refine ⟨fun event => ?_,
    by norm_num [withFinancials, exampleEvent, orZero],
    by norm_num [withFinancials, exampleEvent, orZero],
    by norm_num [withFinancials, exampleEvent, orZero],
    by norm_num [withFinancials, exampleEvent, orZero],
    by norm_num [withFinancials, emptyTrackerEvent, exampleEvent, orZero]⟩
  simp [withFinancials, specRevenue, specCost, foldl_add_eq_sum, zero_add]

/-- C10: the per-event financial derivation (`{...event, revenue, cost,
profit, margin}`) preserves every field of the input event unchanged —
recovering the base event from each output gives back the input list —
and only adds the four derived fields, which is the whole content of the
`FinEvent` result shape. -/
theorem eventFinancials_frame :
    ∀ events : List EventItem,
      (eventFinancials events).map FinEvent.base = events ∧
      ∀ event : EventItem, (withFinancials event).base = event := by
  intro events
  refine ⟨?_, fun event => rfl⟩
  simp only [eventFinancials, List.map_map]
  have h : FinEvent.base ∘ withFinancials = id := funext fun e => rfl
  rw [h, List.map_id]

/-- Build an event holding just a cost tracker (the other fields are
irrelevant to the financial derivation). -/
def mkTrackedEvent (items : List LineItem) : EventItem :=
  { eventId := "t", name := "T", clientName := "C", clientContact := "",
    location := "", salespersonId := "s", commissionRate := none,
    commissionPaid := false, cost_tracker := some items }

/-- C5 counterexample: the source coerces only falsy values
(`item.quantity || 0`); a negative quantity is truthy and passes
through, so the line item `{client_price_sar:100, unit_cost_sar:60,
quantity:-2}` contributes `-200` to revenue and `-120` to cost — not
`0` as the claim states. -/
theorem negQuantity_not_clamped :
    (withFinancials (mkTrackedEvent [⟨some 100, some 60, some (-2)⟩])).revenue = -200 ∧
    (withFinancials (mkTrackedEvent [⟨some 100, some 60, some (-2)⟩])).cost = -120 ∧
    (withFinancials (mkTrackedEvent [⟨some 100, some 60, some (-2)⟩])).revenue ≠ 0 ∧
    (withFinancials (mkTrackedEvent [⟨some 100, some 60, some (-2)⟩])).cost ≠ 0 := by
  norm_num [withFinancials, mkTrackedEvent, orZero]

/-- C5 amended: a line item whose `quantity` is a negative number `q` is
not clamped — it contributes `client_price_sar * q` to revenue and
`unit_cost_sar * q` to cost, wherever it sits in the tracker; only a
missing quantity is coerced to 0. -/
theorem negQuantity_passthrough :
    ∀ (pre post : List LineItem) (p c q : ℚ), q < 0 →
      (withFinancials (mkTrackedEvent (pre ++ ⟨some p, some c, some q⟩ :: post))).revenue
          = specRevenue (mkTrackedEvent pre) + p * q + specRevenue (mkTrackedEvent post) ∧
      (withFinancials (mkTrackedEvent (pre ++ ⟨some p, some c, some q⟩ :: post))).cost
          = specCost (mkTrackedEvent pre) + c * q + specCost (mkTrackedEvent post) := by
  intro pre post p c q _
  constructor <;>
    simp [withFinancials, specRevenue, specCost, mkTrackedEvent, foldl_add_eq_sum,
      orZero, add_assoc]

/-- Witness for `negQuantity_passthrough` at `pre = post = []`,
`p = 100`, `c = 60`, `q = -2`. -/
theorem negQuantity_passthrough_witness :
    (-2 : ℚ) < 0 ∧
      ((withFinancials (mkTrackedEvent [⟨some 100, some 60, some (-2)⟩])).revenue
          = specRevenue (mkTrackedEvent []) + 100 * (-2) + specRevenue (mkTrackedEvent []) ∧
       (withFinancials (mkTrackedEvent [⟨some 100, some 60, some (-2)⟩])).cost
          = specCost (mkTrackedEvent []) + 60 * (-2) + specCost (mkTrackedEvent [])) :=
  ⟨by norm_num, negQuantity_passthrough [] [] 100 60 (-2) (by norm_num)⟩

/-! ## Commission roll-up (`commissionData`, FinancialStudio.tsx lines 112–138) -/

/-- The per-user commission summary row. -/
structure CommissionSummary where
  totalCommission : ℚ
  paidCommission : ℚ
  pendingCommission : ℚ
  eventCount : ℕ
  deriving DecidableEq

/-- The amount `profit * ((event.commissionRate ?? user.commissionRate ?? 0) / 100)`. -/
def commissionAmount (user : User) (event : FinEvent) : ℚ :=
  event.profit * ((event.base.commissionRate.getD (user.commissionRate.getD 0)) / 100)

/-- The body of the source's `userEvents.forEach` accumulation, as a fold
step over the pair (totalCommission, paidCommission). -/
def commissionStep (user : User) (acc : ℚ × ℚ) (event : FinEvent) : ℚ × ℚ :=
  if 0 < event.profit then
    let commissionRate := (event.base.commissionRate.getD (user.commissionRate.getD 0)) / 100
    let amount := event.profit * commissionRate
    (acc.1 + amount, if event.base.commissionPaid then acc.2 + amount else acc.2)
  else acc

/-- One summary row of `commissionData`: filter the derived events to
this salesperson, accumulate commissions over the profitable ones, and
report `pendingCommission = totalCommission - paidCommission` and the
count of all of the salesperson's events. -/
def commissionSummaryFor (fins : List FinEvent) (user : User) : CommissionSummary :=
  let userEvents := fins.filter (fun e => e.base.salespersonId == user.userId)
  let acc := userEvents.foldl (commissionStep user) (0, 0)
  ⟨acc.1, acc.2, acc.1 - acc.2, userEvents.length⟩

/-- The `commissionData` summary list: one row per user with role `Sales`. -/
def commissionData (users : List User) (events : List EventItem) :
    List (User × CommissionSummary) :=
  (users.filter (fun u => u.role == "Sales")).map
    (fun user => (user, commissionSummaryFor (eventFinancials events) user))

/-- Total commission as the specification words it: the sum of
`profit * rate / 100` over exactly the salesperson's events with
positive profit. -/
def specTotalCommission (user : User) (fins : List FinEvent) : ℚ :=
  ((fins.filter (fun e => e.base.salespersonId == user.userId && decide (0 < e.profit))).map
    (commissionAmount user)).sum

/-- Paid commission as the specification words it: the same sum
restricted to events marked `commissionPaid`. -/
def specPaidCommission (user : User) (fins : List FinEvent) : ℚ :=
  ((fins.filter (fun e =>
      e.base.salespersonId == user.userId && decide (0 < e.profit) && e.base.commissionPaid)).map
    (commissionAmount user)).sum

/-- The commission fold computes, in its two components, the filtered
sums of `commissionAmount` over profitable (resp. profitable-and-paid)
events. -/
theorem commissionStep_foldl (user : User) (l : List FinEvent) (a b : ℚ) :
    l.foldl (commissionStep user) (a, b) =
      (a + ((l.filter (fun e => decide (0 < e.profit))).map (commissionAmount user)).sum,
       b + ((l.filter (fun e => decide (0 < e.profit) && e.base.commissionPaid)).map
              (commissionAmount user)).sum) := by
  induction l generalizing a b with
  | nil => simp
  | cons e l ih =>
    by_cases hp : 0 < e.profit
    · by_cases hpaid : e.base.commissionPaid = true
      · simp [commissionStep, hp, hpaid, ih, commissionAmount, add_assoc]
      · simp [commissionStep, hp, hpaid, ih, commissionAmount, add_assoc]
    · simp [commissionStep, hp, ih]

/-- Sales user with a 10% default commission rate (for the concrete
spec example). -/
def salesRep : User := { userId := "u1", name := "Rep", role := "Sales", commissionRate := some 10 }

/-- Event owned by `salesRep` with derived profit `500`. -/
def profitEvent : EventItem :=
  { eventId := "p1", name := "A", clientName := "X", clientContact := "",
    location := "", salespersonId := "u1", commissionRate := none,
    commissionPaid := false, cost_tracker := some [⟨some 500, some 0, some 1⟩] }

/-- Event owned by `salesRep` with derived profit `-100`. -/
def lossEvent : EventItem :=
  { profitEvent with eventId := "p2", cost_tracker := some [⟨some 0, some 100, some 1⟩] }

/-- C3: `commissionData` produces one row per `Sales` user; each row
accumulates, over exactly the events whose `salespersonId` equals the
user's `userId` and whose profit is positive, the amount
`profit * (event.commissionRate ?? user.commissionRate ?? 0) / 100`
into `totalCommission`, adds the same amount to `paidCommission`
exactly when `commissionPaid` is set, reports
`pendingCommission = totalCommission - paidCommission`, and reports
`eventCount` as the number of the user's events regardless of profit
sign; two events of profit `500` and `-100` at rate `10` yield
`totalCommission = 50`. -/
theorem commissionData_spec :
    (∀ (users : List User) (events : List EventItem),
      commissionData users events =
        (users.filter (fun u => u.role == "Sales")).map
          (fun user => (user, commissionSummaryFor (eventFinancials events) user))) ∧
    (∀ (fins : List FinEvent) (user : User),
      (commissionSummaryFor fins user).totalCommission = specTotalCommission user fins ∧
      (commissionSummaryFor fins user).paidCommission = specPaidCommission user fins ∧
      (commissionSummaryFor fins user).pendingCommission =
        specTotalCommission user fins - specPaidCommission user fins ∧
      (commissionSummaryFor fins user).eventCount =
        (fins.filter (fun e => e.base.salespersonId == user.userId)).length) ∧
    (commissionSummaryFor (eventFinancials [profitEvent, lossEvent]) salesRep).totalCommission
      = 50 ∧
    (commissionSummaryFor (eventFinancials [profitEvent, lossEvent]) salesRep).eventCount = 2 := by
  refine ⟨fun users events => rfl, fun fins user => ?_, ?_, ?_⟩
  · have h := commissionStep_foldl user
      (fins.filter (fun e => e.base.salespersonId == user.userId)) 0 0
    have htot : (fins.filter (fun e => e.base.salespersonId == user.userId)).filter
        (fun e => decide (0 < e.profit)) =
        fins.filter (fun e => e.base.salespersonId == user.userId && decide (0 < e.profit)) := by
      rw [List.filter_filter]
      exact List.filter_congr fun e _ => by simp [Bool.and_comm]
    have hpaid : (fins.filter (fun e => e.base.salespersonId == user.userId)).filter
        (fun e => decide (0 < e.profit) && e.base.commissionPaid) =
        fins.filter (fun e =>
          e.base.salespersonId == user.userId && decide (0 < e.profit) &&
            e.base.commissionPaid) := by
      rw [List.filter_filter]
      exact List.filter_congr fun e _ => by
        simp [Bool.and_comm, Bool.and_left_comm, Bool.and_assoc]
    have hsum : commissionSummaryFor fins user =
        ⟨specTotalCommission user fins, specPaidCommission user fins,
         specTotalCommission user fins - specPaidCommission user fins,
         (fins.filter (fun e => e.base.salespersonId == user.userId)).length⟩ := by
      simp only [commissionSummaryFor]
      rw [h]
      simp [htot, hpaid, specTotalCommission, specPaidCommission]
    exact ⟨by rw [hsum], by rw [hsum], by rw [hsum], by rw [hsum]⟩
  · norm_num [commissionSummaryFor, commissionStep, eventFinancials, withFinancials,
      profitEvent, lossEvent, salesRep, orZero]
  · norm_num [commissionSummaryFor, eventFinancials, withFinancials,
      profitEvent, lossEvent, salesRep, orZero]

/-! ## FuzzyMatcher (`ClientValidationModal`, ServiceDetailModal.tsx) -/

/-- Keep a character iff it survives `/[^a-z0-9]/g` removal after
`toLowerCase` (the source lowercases first, so only `a`–`z` and `0`–`9`
remain). -/
def isLowerAlnum (c : Char) : Bool :=
  (decide ('a' ≤ c) && decide (c ≤ 'z')) || (decide ('0' ≤ c) && decide (c ≤ '9'))

/-- Lowercasing `s.toLowerCase()` character-wise (ASCII case mapping, as the
application data uses). -/
def jsToLower (s : String) : List Char := s.toList.map Char.toLower

/-- Stripping `target.toLowerCase().replace(/[^a-z0-9]/g, '')`. -/
def stripAlnum (s : String) : List Char := (jsToLower s).filter isLowerAlnum

/-- JavaScript `hay.includes(needle)`: the needle occurs contiguously in
the haystack; `hay.includes("")` is true. -/
def jsIncludes (hay needle : List Char) : Bool := decide (needle <:+: hay)

/-- Worker for `split(/\s+/)`: walk the characters keeping the current
token (reversed) and whether the previous character was whitespace, so
that a run of whitespace makes a single cut.  Matches JavaScript in
producing a leading (resp. trailing) empty token when the string starts
(resp. ends) with whitespace, and `[""]` for the empty string. -/
def jsSplitWsAux : List Char → List Char → Bool → List (List Char)
  | [], cur, _ => [cur.reverse]
  | c :: rest, cur, prevWs =>
    if c.isWhitespace then
      if prevWs then jsSplitWsAux rest [] true
      else cur.reverse :: jsSplitWsAux rest [] true
    else jsSplitWsAux rest (c :: cur) false

/-- Splitting `s.split(/\s+/)` on a character list. -/
def jsSplitWs (s : List Char) : List (List Char) := jsSplitWsAux s [] false

/-- The token set `new Set(s.toLowerCase().split(/\s+/))`. -/
def tokenSet (s : String) : Finset (List Char) := (jsSplitWs (jsToLower s)).toFinset

/-- The score `calculateMatchScore` (ServiceDetailModal.tsx lines 639–656):
strip/lowercase both strings; equal → 1; one contains the other → 0.8;
else token-overlap score `0.5 + (|∩| / max(|t1|,|t2|)) * 0.4` when the
whitespace-token sets intersect; otherwise 0. -/
def calculateMatchScore (target candidate : String) : ℚ :=
  let s1 := stripAlnum target
  let s2 := stripAlnum candidate
  if s1 = s2 then 1
  else if jsIncludes s1 s2 || jsIncludes s2 s1 then 4/5
  else
    let tokens1 := tokenSet target
    let tokens2 := tokenSet candidate
    let intersection := tokens1 ∩ tokens2
    if 0 < intersection.card then
      1/2 + ((intersection.card : ℚ) / (max tokens1.card tokens2.card)) * (2/5)
    else 0

/-- The match score as the specification words it: lowercase and strip
both strings; equal stripped strings score 1.0; one a substring of the
other scores 0.8; otherwise, whitespace tokens of the lowercased
originals with non-empty intersection score
`0.5 + (|t1 ∩ t2| / max(|t1|,|t2|)) * 0.4`; else 0. -/
def specMatchScore (target candidate : String) : ℚ :=
  if stripAlnum target = stripAlnum candidate then 1
  else if stripAlnum candidate <:+: stripAlnum target ∨
          stripAlnum target <:+: stripAlnum candidate then 4/5
  else if (tokenSet target ∩ tokenSet candidate).Nonempty then
    1/2 + (((tokenSet target ∩ tokenSet candidate).card : ℚ) /
      (max (tokenSet target).card (tokenSet candidate).card)) * (2/5)
  else 0

/-- C2: the implemented score agrees with the specification's
description of it, and in the token-overlap branch the score lies in
the interval (0.5, 0.9]. -/
theorem calculateMatchScore_spec :
    ∀ target candidate : String,
      calculateMatchScore target candidate = specMatchScore target candidate ∧
      (stripAlnum target ≠ stripAlnum candidate →
        ¬(stripAlnum candidate <:+: stripAlnum target ∨
            stripAlnum target <:+: stripAlnum candidate) →
        (tokenSet target ∩ tokenSet candidate).Nonempty →
        1/2 < calculateMatchScore target candidate ∧
          calculateMatchScore target candidate ≤ 9/10) := by
  intro target candidate
  have hrange : (tokenSet target ∩ tokenSet candidate).Nonempty →
      1/2 < 1/2 + (((tokenSet target ∩ tokenSet candidate).card : ℚ) /
          (max (tokenSet target).card (tokenSet candidate).card)) * (2/5) ∧
      1/2 + (((tokenSet target ∩ tokenSet candidate).card : ℚ) /
          (max (tokenSet target).card (tokenSet candidate).card)) * (2/5) ≤ 9/10 := by
    intro hne
    have hI : 0 < (tokenSet target ∩ tokenSet candidate).card := Finset.card_pos.mpr hne
    have hIM : (tokenSet target ∩ tokenSet candidate).card ≤
        max (tokenSet target).card (tokenSet candidate).card :=
      le_trans (Finset.card_le_card Finset.inter_subset_left) (le_max_left _ _)
    have hM : 0 < max (tokenSet target).card (tokenSet candidate).card := lt_of_lt_of_le hI hIM
    have hIq : (0 : ℚ) < ((tokenSet target ∩ tokenSet candidate).card : ℚ) := by
      exact_mod_cast hI
    have hMq : (0 : ℚ) <
        ((max (tokenSet target).card (tokenSet candidate).card : ℕ) : ℚ) := by
      exact_mod_cast hM
    have hr0 : (0 : ℚ) < ((tokenSet target ∩ tokenSet candidate).card : ℚ) /
        ((max (tokenSet target).card (tokenSet candidate).card : ℕ) : ℚ) := div_pos hIq hMq
    have hr1 : ((tokenSet target ∩ tokenSet candidate).card : ℚ) /
        ((max (tokenSet target).card (tokenSet candidate).card : ℕ) : ℚ) ≤ 1 :=
      (div_le_one hMq).mpr (by exact_mod_cast hIM)
    constructor
    · nlinarith
    · nlinarith
  constructor
  · simp only [calculateMatchScore, specMatchScore, jsIncludes, Bool.or_eq_true,
      decide_eq_true_eq, Finset.card_pos]
  · intro h1 h2 h3
    have hscore : calculateMatchScore target candidate =
        1/2 + (((tokenSet target ∩ tokenSet candidate).card : ℚ) /
          (max (tokenSet target).card (tokenSet candidate).card)) * (2/5) := by
      simp only [calculateMatchScore, jsIncludes, Bool.or_eq_true, decide_eq_true_eq,
        Finset.card_pos]
      rw [if_neg h1, if_neg h2, if_pos h3]
    rw [hscore]
    exact hrange h3

/-- Witness for `calculateMatchScore_spec` in the token-overlap branch:
`"alpha beta"` vs `"beta gamma"` overlap on `beta`, scoring `0.7`. -/
theorem calculateMatchScore_spec_witness :
    stripAlnum "alpha beta" ≠ stripAlnum "beta gamma" ∧
    ¬(stripAlnum "beta gamma" <:+: stripAlnum "alpha beta" ∨
        stripAlnum "alpha beta" <:+: stripAlnum "beta gamma") ∧
    (tokenSet "alpha beta" ∩ tokenSet "beta gamma").Nonempty ∧
    (1/2 < calculateMatchScore "alpha beta" "beta gamma" ∧
      calculateMatchScore "alpha beta" "beta gamma" ≤ 9/10) :=
  ⟨by decide, by decide, by decide,
    (calculateMatchScore_spec "alpha beta" "beta gamma").2 (by decide) (by decide) (by decide)⟩

/-- An empty matching target strips to the empty string, so the score
against any candidate is decided by the substring branch: 1 if the
candidate also strips to empty, else 0.8 (`"x".includes("")` is true). -/
theorem score_empty_target (candidate : String) :
    calculateMatchScore "" candidate = if stripAlnum candidate = [] then 1 else 4/5 := by
  have h0 : stripAlnum "" = [] := rfl
  by_cases hc : stripAlnum candidate = []
  · simp only [calculateMatchScore, h0, hc, if_pos rfl, if_true]
  · have hne : ¬(([] : List Char) = stripAlnum candidate) := fun h => hc h.symm
    have hincl : jsIncludes (stripAlnum candidate) [] = true := by
      simp [jsIncludes]
    simp only [calculateMatchScore, h0, if_neg hne, hincl, Bool.or_true, if_true, if_neg hc]

/-! `findBestMatch` (ServiceDetailModal.tsx lines 658–670). -/

/-- The body of `findBestMatch`'s `forEach`: keep the incumbent unless
the candidate's score strictly exceeds it. -/
def bestStep (name : String) (best : Option Client × ℚ) (client : Client) :
    Option Client × ℚ :=
  let score := calculateMatchScore name client.companyName
  if best.2 < score then (some client, score) else best

/-- The search `findBestMatch`: fold over the client list starting from
(no match, score 0). -/
def findBestMatch (name : String) (clientList : List Client) : Option Client × ℚ :=
  clientList.foldl (bestStep name) (none, 0)

/-- The running best score never decreases along the fold. -/
theorem bestStep_foldl_mono (name : String) :
    ∀ (clients : List Client) (acc : Option Client × ℚ),
      acc.2 ≤ (clients.foldl (bestStep name) acc).2 := by
  intro clients
  induction clients with
  | nil => intro acc; simp
  | cons c rest ih =>
    intro acc
    have hstep : acc.2 ≤ (bestStep name acc c).2 := by
      simp only [bestStep]
      split
      · exact le_of_lt (by assumption)
      · exact le_refl _
    exact le_trans hstep (ih (bestStep name acc c))

/-- C6 counterexample: an empty `clientName` scores `0.8` (not `0`)
against the candidate `"Globex"`, which clears the `0.4`
confident-suggestion threshold. -/
theorem emptyName_score_counterexample :
    calculateMatchScore "" "Globex" = 4/5 ∧
    calculateMatchScore "" "Globex" ≠ 0 ∧
    (2/5 : ℚ) < calculateMatchScore "" "Globex" := by
  have h : calculateMatchScore "" "Globex" = 4/5 := by
    rw [score_empty_target, if_neg (by decide)]
  refine ⟨h, ?_, ?_⟩ <;> rw [h] <;> norm_num

/-- C6 amended: an event with empty `clientName` scores 1 against a
candidate whose stripped name is empty and 0.8 against every other
candidate — never 0 — so its score always clears the 0.4 threshold and
whenever at least one client exists, `findBestMatch` reports a
confident (score > 0.4) suggestion rather than falling through. -/
theorem emptyName_always_confident :
    ∀ candidate : String,
      (stripAlnum candidate = [] → calculateMatchScore "" candidate = 1) ∧
      (stripAlnum candidate ≠ [] → calculateMatchScore "" candidate = 4/5) ∧
      (2/5 : ℚ) < calculateMatchScore "" candidate ∧
      ∀ (c : Client) (rest : List Client), (2/5 : ℚ) < (findBestMatch "" (c :: rest)).2 := by
  have hgt : ∀ candidate : String, (2/5 : ℚ) < calculateMatchScore "" candidate := by
    intro candidate
    rw [score_empty_target]
    split <;> norm_num
  intro candidate
  refine ⟨fun hc => by rw [score_empty_target, if_pos hc],
    fun hc => by rw [score_empty_target, if_neg hc], hgt candidate, ?_⟩
  intro c rest
  have hfirst : (2/5 : ℚ) < (bestStep "" (none, 0) c).2 := by
    have hs := hgt c.companyName
    have hpos : (0 : ℚ) < calculateMatchScore "" c.companyName := lt_trans (by norm_num) hs
    simp only [bestStep, if_pos hpos]
    exact hs
  calc (2/5 : ℚ) < (bestStep "" (none, 0) c).2 := hfirst
    _ ≤ (rest.foldl (bestStep "") (bestStep "" (none, 0) c)).2 :=
        bestStep_foldl_mono "" rest (bestStep "" (none, 0) c)

/-- Witness for `emptyName_always_confident` at candidate `"Globex"`
and the singleton client list. -/
theorem emptyName_always_confident_witness :
    stripAlnum "Globex" ≠ [] ∧
    calculateMatchScore "" "Globex" = 4/5 ∧
    (2/5 : ℚ) < (findBestMatch "" [⟨"c1", "Globex", "G"⟩]).2 :=
  ⟨by decide, (emptyName_always_confident "Globex").2.1 (by decide),
    (emptyName_always_confident "Globex").2.2.2 ⟨"c1", "Globex", "G"⟩ []⟩

/-- Full characterization of the `findBestMatch` fold from an arbitrary
accumulator: the score never decreases, bounds every candidate's score,
and the result is either the untouched accumulator or the first
candidate whose score strictly exceeds both the accumulator and every
earlier candidate. -/
theorem bestStep_foldl_spec (name : String) :
    ∀ (clients : List Client) (acc : Option Client × ℚ),
      acc.2 ≤ (clients.foldl (bestStep name) acc).2 ∧
      (∀ c ∈ clients,
        calculateMatchScore name c.companyName ≤ (clients.foldl (bestStep name) acc).2) ∧
      (clients.foldl (bestStep name) acc = acc ∨
        ∃ pre c post, clients = pre ++ c :: post ∧
          clients.foldl (bestStep name) acc =
            (some c, calculateMatchScore name c.companyName) ∧
          acc.2 < calculateMatchScore name c.companyName ∧
          ∀ c' ∈ pre, calculateMatchScore name c'.companyName <
            calculateMatchScore name c.companyName) := by
  intro clients
  induction clients with
  | nil => exact fun acc => ⟨le_refl _, by simp, Or.inl rfl⟩
  | cons c0 rest ih =>
    intro acc
    by_cases h : acc.2 < calculateMatchScore name c0.companyName
    · have hstep : bestStep name acc c0 = (some c0, calculateMatchScore name c0.companyName) := by
        simp only [bestStep, if_pos h]
      have hfold : (c0 :: rest).foldl (bestStep name) acc =
          rest.foldl (bestStep name) (some c0, calculateMatchScore name c0.companyName) := by
        simp [List.foldl, hstep]
      obtain ⟨ih1, ih2, ih3⟩ := ih (some c0, calculateMatchScore name c0.companyName)
      refine ⟨?_, ?_, ?_⟩
      · rw [hfold]; exact le_trans (le_of_lt h) ih1
      · intro c hc
        rw [hfold]
        rcases List.mem_cons.mp hc with rfl | hc'
        · exact ih1
        · exact ih2 c hc'
      · rw [hfold]
        rcases ih3 with heq | ⟨pre, c, post, hsplit, hres, hlt, hpre⟩
        · exact Or.inr ⟨[], c0, rest, rfl, heq, h, by simp⟩
        · refine Or.inr ⟨c0 :: pre, c, post, by rw [hsplit]; rfl, hres, lt_trans h hlt, ?_⟩
          intro c' hc'
          rcases List.mem_cons.mp hc' with rfl | hc''
          · exact hlt
          · exact hpre c' hc''
    · have hstep : bestStep name acc c0 = acc := by
        simp only [bestStep, if_neg h]
      have hfold : (c0 :: rest).foldl (bestStep name) acc = rest.foldl (bestStep name) acc := by
        simp [List.foldl, hstep]
      obtain ⟨ih1, ih2, ih3⟩ := ih acc
      have hc0 : calculateMatchScore name c0.companyName ≤ acc.2 := le_of_not_lt h
      refine ⟨?_, ?_, ?_⟩
      · rw [hfold]; exact ih1
      · intro c hc
        rw [hfold]
        rcases List.mem_cons.mp hc with rfl | hc'
        · exact le_trans hc0 ih1
        · exact ih2 c hc'
      · rw [hfold]
        rcases ih3 with heq | ⟨pre, c, post, hsplit, hres, hlt, hpre⟩
        · exact Or.inl heq
        · refine Or.inr ⟨c0 :: pre, c, post, by rw [hsplit]; rfl, hres, hlt, ?_⟩
          intro c' hc'
          rcases List.mem_cons.mp hc' with rfl | hc''
          · exact lt_of_le_of_lt hc0 hlt
          · exact hpre c' hc''

/-- C8 counterexample: with the single candidate `"Globex"` and target
`"xyz"` every score is 0, so the (first and only) candidate attains the
maximal score, yet `findBestMatch` suggests no client at all — the
update requires a strictly positive improvement over the initial 0. -/
theorem findBestMatch_zero_counterexample :
    (findBestMatch "xyz" [⟨"c1", "Globex", "G"⟩]).1 = none ∧
    (findBestMatch "xyz" [⟨"c1", "Globex", "G"⟩]).2 =
      calculateMatchScore "xyz" ("Globex" : String) := by
  have h : calculateMatchScore "xyz" "Globex" = 0 := by
    simp only [calculateMatchScore]
    rw [if_neg (by decide), if_neg (by decide), if_neg (by decide)]
  constructor
  · simp [findBestMatch, bestStep, h]
  · simp [findBestMatch, bestStep, h]

/-- C8 amended: `findBestMatch` is deterministic and order-preserving —
its score bounds every candidate's score; when the maximal score is
positive, the suggested client is the first candidate attaining it (all
earlier candidates score strictly less); but when every candidate
scores 0 the result carries no suggested client (score 0, suggestion
`none`), rather than the first candidate. -/
theorem findBestMatch_first_max :
    ∀ (name : String) (clients : List Client),
      (∀ c ∈ clients,
        calculateMatchScore name c.companyName ≤ (findBestMatch name clients).2) ∧
      (0 < (findBestMatch name clients).2 →
        ∃ pre c post, clients = pre ++ c :: post ∧
          (findBestMatch name clients).1 = some c ∧
          (findBestMatch name clients).2 = calculateMatchScore name c.companyName ∧
          ∀ c' ∈ pre, calculateMatchScore name c'.companyName <
            calculateMatchScore name c.companyName) ∧
      ((findBestMatch name clients).2 = 0 → (findBestMatch name clients).1 = none) ∧
      0 ≤ (findBestMatch name clients).2 := by
  intro name clients
  obtain ⟨h1, h2, h3⟩ := bestStep_foldl_spec name clients (none, 0)
  refine ⟨h2, ?_, ?_, h1⟩
  · intro hpos
    rcases h3 with heq | ⟨pre, c, post, hsplit, hres, _, hpre⟩
    · rw [findBestMatch, heq] at hpos
      exact absurd hpos (by norm_num)
    · exact ⟨pre, c, post, hsplit, by rw [findBestMatch, hres],
        by rw [findBestMatch, hres], fun c' hc' => hpre c' hc'⟩
  · intro hzero
    rcases h3 with heq | ⟨pre, c, post, hsplit, hres, hlt, hpre⟩
    · rw [findBestMatch, heq]
    · rw [findBestMatch, hres] at hzero ⊢
      simp only at hzero
      rw [hzero] at hlt
      exact absurd hlt (by norm_num)

/-! ## The unresolved-events pass (`ClientValidationModal` effect,
ServiceDetailModal.tsx lines 672–690) and resolution actions. -/

/-- JavaScript `trim()`: drop leading and trailing whitespace. -/
def jsTrim (l : List Char) : List Char :=
  ((l.dropWhile Char.isWhitespace).reverse.dropWhile Char.isWhitespace).reverse

/-- Normalization `s.trim().toLowerCase()` used for the exact-match
check. -/
def normalize (s : String) : List Char := (jsTrim s.toList).map Char.toLower

/-- One element of the `unlinkedEvents` state: the event plus the best
fuzzy suggestion and its score. -/
structure UnlinkedEvent where
  event : EventItem
  suggestedMatch : Option Client
  matchScore : ℚ
  deriving DecidableEq

/-- The per-event body of the unlinked-events effect: resolved events
(exact normalized companyName match) and ignored events produce
nothing; otherwise the event is emitted with its best fuzzy match. -/
def unresolvedEntry (clients : List Client) (ignoredIds : List String)
    (event : EventItem) : Option UnlinkedEvent :=
  let exactMatch :=
    clients.find? (fun c => normalize c.companyName == normalize event.clientName)
  if exactMatch.isNone && !(ignoredIds.contains event.eventId) then
    some ⟨event, (findBestMatch event.clientName clients).1,
      (findBestMatch event.clientName clients).2⟩
  else none

/-- The pass `findUnresolved(events, clients, ignored)`: the unlinked-events list
recomputed by the reconciliation effect. -/
def findUnresolved (events : List EventItem) (clients : List Client)
    (ignoredIds : List String) : List UnlinkedEvent :=
  events.filterMap (unresolvedEntry clients ignoredIds)

/-- An emitted entry carries exactly the event it was computed from. -/
theorem unresolvedEntry_event {clients : List Client} {ignoredIds : List String}
    {a : EventItem} {u : UnlinkedEvent} (h : unresolvedEntry clients ignoredIds a = some u) :
    u.event = a := by
  simp only [unresolvedEntry] at h
  split at h
  · cases h; rfl
  · cases h

/-- An event with an exact normalized match among the clients produces
no unresolved entry. -/
theorem unresolvedEntry_eq_none_of_exact {clients : List Client}
    {ignoredIds : List String} {a : EventItem} {c : Client} (hc : c ∈ clients)
    (hn : normalize c.companyName = normalize a.clientName) :
    unresolvedEntry clients ignoredIds a = none := by
  unfold unresolvedEntry
  have hfind : (clients.find?
      (fun c => normalize c.companyName == normalize a.clientName)).isSome := by
    rw [List.find?_isSome]
    exact ⟨c, hc, by simp [hn]⟩
  rw [if_neg]
  simp only [Bool.and_eq_true, not_and]
  intro hnone
  rw [Option.isNone_iff_eq_none] at hnone
  rw [hnone] at hfind
  simp at hfind

/-- C4: if some client's `companyName` equals an event's `clientName`
after trimming and lowercasing, that event never appears in
`findUnresolved`'s output. -/
theorem findUnresolved_excludes_matched :
    ∀ (events : List EventItem) (clients : List Client) (ignoredIds : List String)
      (e : EventItem) (c : Client),
      e ∈ events → c ∈ clients →
      normalize c.companyName = normalize e.clientName →
      e ∉ (findUnresolved events clients ignoredIds).map UnlinkedEvent.event := by
  intro events clients ignoredIds e c _ hc hn hmem
  rw [List.mem_map] at hmem
  obtain ⟨u, hu, hue⟩ := hmem
  rw [findUnresolved, List.mem_filterMap] at hu
  obtain ⟨a, _, hfa⟩ := hu
  have hea : a = e := by rw [← hue, unresolvedEntry_event hfa]
  subst hea
  rw [unresolvedEntry_eq_none_of_exact hc hn] at hfa
  cases hfa

/-- Concrete event/client pair with identical names (for witnesses). -/
def matchedEvent : EventItem :=
  { eventId := "em", name := "Launch", clientName := "Acme", clientContact := "TBD",
    location := "Jeddah", salespersonId := "u1", commissionRate := none,
    commissionPaid := false, cost_tracker := some [] }

/-- Client whose `companyName` normalizes like `matchedEvent.clientName`. -/
def matchedClient : Client := { id := "c0", companyName := " ACME ", primaryContactName := "P" }

/-- Witness for `findUnresolved_excludes_matched`: `" ACME "` normalizes
to `"acme"`, matching the event `"Acme"`, so the event is excluded. -/
theorem findUnresolved_excludes_matched_witness :
    matchedEvent ∈ [matchedEvent] ∧ matchedClient ∈ [matchedClient] ∧
    normalize matchedClient.companyName = normalize matchedEvent.clientName ∧
    matchedEvent ∉
      (findUnresolved [matchedEvent] [matchedClient] []).map UnlinkedEvent.event :=
  ⟨List.mem_singleton.mpr rfl, List.mem_singleton.mpr rfl, by decide,
    findUnresolved_excludes_matched [matchedEvent] [matchedClient] [] matchedEvent
      matchedClient (List.mem_singleton.mpr rfl) (List.mem_singleton.mpr rfl) (by decide)⟩

/-- The contact adopted by `handleLink` as applied by the external state owner
(ServiceDetailModal.tsx lines 694–708): the current event's
`clientName` becomes the selected client's name; a generic contact
(`"TBD"` or empty) is replaced by the matched client's primary contact. -/
def linkContact (clients : List Client) (current : EventItem) (clientName : String) :
    String :=
  let existingClient := clients.find? (fun c => c.companyName == clientName)
  if (current.clientContact == "TBD" || current.clientContact == "") &&
      existingClient.isSome then
    (existingClient.map Client.primaryContactName).getD current.clientContact
  else current.clientContact

/-- The store-side update of a single event performed by `handleLink`. -/
def linkUpdate (clients : List Client) (current : EventItem) (clientName : String)
    (e : EventItem) : EventItem :=
  if e.eventId == current.eventId then
    { e with
      clientName := clientName
      clientContact := linkContact clients current clientName }
  else e

/-- The action `handleLink` applied through the store: patch the current event. -/
def handleLink (events : List EventItem) (clients : List Client) (current : EventItem)
    (clientName : String) : List EventItem :=
  events.map (linkUpdate clients current clientName)

/-- The action `handleCreate` as applied by the external state owner
(ServiceDetailModal.tsx lines 710–726): append a client synthesized
from the current event (`companyName := event.clientName`; the id is
assigned by the store). -/
def handleCreate (clients : List Client) (current : EventItem) : List Client :=
  clients ++
    [{ id := "generated", companyName := current.clientName,
       primaryContactName :=
         if current.clientContact == "" then "Primary Contact"
         else current.clientContact }]

/-- If `g` emits only where `f` does, `filterMap g` is no longer than
`filterMap f`. -/
theorem filterMap_length_mono {α β γ : Type} (f : α → Option β) (g : α → Option γ)
    (l : List α) (h : ∀ a ∈ l, (g a).isSome → (f a).isSome) :
    (l.filterMap g).length ≤ (l.filterMap f).length := by
  induction l with
  | nil => simp
  | cons x xs ih =>
    have hx := h x (List.mem_cons_self x xs)
    have ihs := ih (fun a ha hs => h a (List.mem_cons_of_mem x ha) hs)
    rcases hgx : g x with _ | b
    · rcases hfx : f x with _ | c
      · simpa [List.filterMap_cons, hgx, hfx] using ihs
      · simp only [List.filterMap_cons, hgx, hfx, List.length_cons]
        exact le_trans ihs (Nat.le_succ _)
    · have : (f x).isSome := hx (by simp [hgx])
      rcases hfx : f x with _ | c
      · rw [hfx] at this; simp at this
      · simpa [List.filterMap_cons, hgx, hfx] using ihs

/-- If moreover `f` emits somewhere `g` does not, `filterMap g` is
strictly shorter than `filterMap f`. -/
theorem filterMap_length_strict {α β γ : Type} (f : α → Option β) (g : α → Option γ)
    (l : List α) (h : ∀ a ∈ l, (g a).isSome → (f a).isSome)
    (hx : ∃ a ∈ l, (f a).isSome ∧ g a = none) :
    (l.filterMap g).length < (l.filterMap f).length := by
  induction l with
  | nil => simp at hx
  | cons x xs ih =>
    have htail : ∀ a ∈ xs, (g a).isSome → (f a).isSome :=
      fun a ha hs => h a (List.mem_cons_of_mem x ha) hs
    rcases hx with ⟨a, ha, hfa, hga⟩
    rcases List.mem_cons.mp ha with rfl | ha'
    · rcases hfx : f a with _ | c
      · rw [hfx] at hfa; simp at hfa
      · have hle := filterMap_length_mono f g xs htail
        simp only [List.filterMap_cons, hga, hfx, List.length_cons]
        exact Nat.lt_succ_of_le hle
    · have ihs := ih htail ⟨a, ha', hfa, hga⟩
      rcases hgx : g x with _ | b
      · rcases hfx : f x with _ | c
        · simpa [List.filterMap_cons, hgx, hfx] using ihs
        · simp only [List.filterMap_cons, hgx, hfx, List.length_cons]
          exact lt_trans ihs (Nat.lt_succ_self _)
      · have hsome : (f x).isSome := h x (List.mem_cons_self x xs) (by simp [hgx])
        rcases hfx : f x with _ | c
        · rw [hfx] at hsome; simp at hsome
        · simpa [List.filterMap_cons, hgx, hfx] using ihs

/-- When the reconciliation condition fails, no entry is produced. -/
theorem unresolvedEntry_eq_none_of_ignored {clients : List Client}
    {ignoredIds : List String} {a : EventItem}
    (h : ignoredIds.contains a.eventId = true) :
    unresolvedEntry clients ignoredIds a = none := by
  unfold unresolvedEntry
  rw [if_neg]
  simp only [Bool.and_eq_true, Bool.not_eq_true', not_and]
  intro _
  rw [h]
  simp

/-- A produced entry implies the event was neither resolved nor ignored. -/
theorem unresolvedEntry_isSome_elim {clients : List Client} {ignoredIds : List String}
    {a : EventItem} (h : (unresolvedEntry clients ignoredIds a).isSome) :
    (clients.find? (fun c => normalize c.companyName == normalize a.clientName)) = none ∧
    ignoredIds.contains a.eventId = false := by
  by_cases hcond : ((clients.find?
      (fun c => normalize c.companyName == normalize a.clientName)).isNone &&
        !(ignoredIds.contains a.eventId)) = true
  · simp only [Bool.and_eq_true, Option.isNone_iff_eq_none, Bool.not_eq_true'] at hcond
    exact hcond
  · exfalso
    unfold unresolvedEntry at h
    rw [if_neg hcond] at h
    simp at h

/-- Events neither resolved nor ignored do produce an entry. -/
theorem unresolvedEntry_isSome_intro {clients : List Client} {ignoredIds : List String}
    {a : EventItem}
    (h1 : clients.find? (fun c => normalize c.companyName == normalize a.clientName) = none)
    (h2 : ignoredIds.contains a.eventId = false) :
    (unresolvedEntry clients ignoredIds a).isSome := by
  have h2' : a.eventId ∉ ignoredIds := by
    have hc : ignoredIds.contains a.eventId = decide (a.eventId ∈ ignoredIds) := by
      simp [List.contains]
    rw [hc] at h2
    exact of_decide_eq_false h2
  unfold unresolvedEntry
  rw [if_pos (by simp [h1, h2'])]
  simp

/-- C7: after each resolution action the recomputed unresolved list
shrinks — strictly for `handleLink` (to any existing client's name) and
for `handleCreate`, and does not grow for `ignore` (adding the event id
to the ignored set); and `findUnresolved` is pure, so re-running it on
unchanged inputs returns a structurally equal (here: definitionally
identical) result. -/
theorem findUnresolved_shrinks :
    ∀ (events : List EventItem) (clients : List Client) (ignoredIds : List String)
      (u : UnlinkedEvent),
      u ∈ findUnresolved events clients ignoredIds →
      (∀ linkName : String, (∃ c ∈ clients, c.companyName = linkName) →
        (findUnresolved (handleLink events clients u.event linkName) clients
            ignoredIds).length <
          (findUnresolved events clients ignoredIds).length) ∧
      ((findUnresolved events (handleCreate clients u.event) ignoredIds).length <
        (findUnresolved events clients ignoredIds).length) ∧
      ((findUnresolved events clients (ignoredIds ++ [u.event.eventId])).length ≤
        (findUnresolved events clients ignoredIds).length) ∧
      findUnresolved events clients ignoredIds = findUnresolved events clients ignoredIds := by
  intro events clients ignoredIds u hu
  rw [findUnresolved, List.mem_filterMap] at hu
  obtain ⟨a, ha, hfa⟩ := hu
  have hae : u.event = a := unresolvedEntry_event hfa
  refine ⟨?_, ?_, ?_, rfl⟩
  · -- linkToExisting: the updated event gains an exact match
    rintro linkName ⟨c, hc, hcc⟩
    rw [findUnresolved, handleLink, List.filterMap_map, findUnresolved]
    have hnone : ∀ b : EventItem, (b.eventId == u.event.eventId) = true →
        (unresolvedEntry clients ignoredIds) (linkUpdate clients u.event linkName b) = none := by
      intro b hid
      have hupd : linkUpdate clients u.event linkName b =
          { b with
            clientName := linkName
            clientContact := linkContact clients u.event linkName } := by
        simp [linkUpdate, hid]
      rw [hupd]
      exact unresolvedEntry_eq_none_of_exact hc (by rw [hcc])
    apply filterMap_length_strict
    · intro b _ hsome
      by_cases hid : (b.eventId == u.event.eventId) = true
      · exfalso
        rw [Function.comp_apply, hnone b hid] at hsome
        simp at hsome
      · have hupd : linkUpdate clients u.event linkName b = b := by
          simp only [linkUpdate, if_neg hid]
        rwa [Function.comp_apply, hupd] at hsome
    · refine ⟨a, ha, by rw [hfa]; simp, ?_⟩
      have hid : (a.eventId == u.event.eventId) = true := by rw [hae]; simp
      rw [Function.comp_apply, hnone a hid]
  · -- createFromEvent: the new client matches the event exactly
    rw [findUnresolved, findUnresolved]
    apply filterMap_length_strict
    · intro b _ hsome
      obtain ⟨hfind, hcont⟩ := unresolvedEntry_isSome_elim hsome
      have hfind' : clients.find?
          (fun c => normalize c.companyName == normalize b.clientName) = none := by
        rw [List.find?_eq_none] at hfind ⊢
        exact fun x hx => hfind x (List.mem_append_left _ hx)
      exact unresolvedEntry_isSome_intro hfind' hcont
    · refine ⟨a, ha, by rw [hfa]; simp, ?_⟩
      apply unresolvedEntry_eq_none_of_exact
        (c := { id := "generated", companyName := u.event.clientName,
                primaryContactName :=
                  if u.event.clientContact == "" then "Primary Contact"
                  else u.event.clientContact })
      · simp [handleCreate]
      · show normalize u.event.clientName = normalize a.clientName
        rw [hae]
  · -- ignore: a larger ignored set filters at least as much
    rw [findUnresolved, findUnresolved]
    apply filterMap_length_mono
    intro b _ hsome
    obtain ⟨hfind, hcont⟩ := unresolvedEntry_isSome_elim hsome
    have hcont' : ignoredIds.contains b.eventId = false := by
      have hmem : ¬ b.eventId ∈ ignoredIds ++ [u.event.eventId] := by
        have : (ignoredIds ++ [u.event.eventId]).contains b.eventId =
            decide (b.eventId ∈ ignoredIds ++ [u.event.eventId]) := by
          simp [List.contains]
        rw [this] at hcont
        exact of_decide_eq_false hcont
      have : ¬ b.eventId ∈ ignoredIds := fun hmem' => hmem (List.mem_append_left _ hmem')
      have hc : ignoredIds.contains b.eventId = decide (b.eventId ∈ ignoredIds) := by
        simp [List.contains]
      rw [hc]
      exact decide_eq_false this
    exact unresolvedEntry_isSome_intro hfind hcont'

/-- Concrete unresolved event (no client matches `"Acme Inc"`). -/
def unresolvedCaseEvent : EventItem :=
  { eventId := "eu", name := "Expo", clientName := "Acme Inc", clientContact := "TBD",
    location := "Dammam", salespersonId := "u1", commissionRate := none,
    commissionPaid := false, cost_tracker := some [] }

/-- The only client on file in the concrete reconciliation scenario. -/
def unresolvedCaseClient : Client := ⟨"cg", "Globex", "G"⟩

/-- The entry `findUnresolved` emits for the scenario above. -/
def unresolvedCaseEntry : UnlinkedEvent := ⟨unresolvedCaseEvent, none, 0⟩

/-- Witness for `findUnresolved_shrinks` on the one-event scenario. -/
theorem findUnresolved_shrinks_witness :
    unresolvedCaseEntry ∈ findUnresolved [unresolvedCaseEvent] [unresolvedCaseClient] [] ∧
    (∃ c ∈ [unresolvedCaseClient], c.companyName = "Globex") ∧
    (findUnresolved
        (handleLink [unresolvedCaseEvent] [unresolvedCaseClient]
          unresolvedCaseEntry.event "Globex")
        [unresolvedCaseClient] []).length <
      (findUnresolved [unresolvedCaseEvent] [unresolvedCaseClient] []).length ∧
    (findUnresolved [unresolvedCaseEvent]
        (handleCreate [unresolvedCaseClient] unresolvedCaseEntry.event) []).length <
      (findUnresolved [unresolvedCaseEvent] [unresolvedCaseClient] []).length ∧
    (findUnresolved [unresolvedCaseEvent] [unresolvedCaseClient]
        ([] ++ [unresolvedCaseEntry.event.eventId])).length ≤
      (findUnresolved [unresolvedCaseEvent] [unresolvedCaseClient] []).length := by
  have hmem : unresolvedCaseEntry ∈
      findUnresolved [unresolvedCaseEvent] [unresolvedCaseClient] [] := by decide
  have hex : ∃ c ∈ [unresolvedCaseClient], c.companyName = "Globex" :=
    ⟨unresolvedCaseClient, List.mem_singleton.mpr rfl, rfl⟩
  obtain ⟨h1, h2, h3, _⟩ := findUnresolved_shrinks [unresolvedCaseEvent]
    [unresolvedCaseClient] [] unresolvedCaseEntry hmem
  exact ⟨hmem, hex, h1 "Globex" hex, h2, h3⟩

/-- A candidate scoring 0 against `"alpha beta"`. -/
def tieClientA : Client := ⟨"cz", "Zzz", "Z"⟩

/-- A candidate scoring 1 against `"alpha beta"`. -/
def tieClientB : Client := ⟨"cb", "alpha beta", "B"⟩

/-- Witness for `findBestMatch_first_max`: with candidates scoring 0
then 1, the positive-maximum branch identifies the second client. -/
theorem findBestMatch_first_max_witness :
    0 < (findBestMatch "alpha beta" [tieClientA, tieClientB]).2 ∧
    (∃ pre c post, [tieClientA, tieClientB] = pre ++ c :: post ∧
      (findBestMatch "alpha beta" [tieClientA, tieClientB]).1 = some c ∧
      (findBestMatch "alpha beta" [tieClientA, tieClientB]).2 =
        calculateMatchScore "alpha beta" c.companyName ∧
      ∀ c' ∈ pre, calculateMatchScore "alpha beta" c'.companyName <
        calculateMatchScore "alpha beta" c.companyName) := by
  have hz : calculateMatchScore "alpha beta" "Zzz" = 0 := by
    simp only [calculateMatchScore]
    rw [if_neg (by decide), if_neg (by decide), if_neg (by decide)]
  have ha : calculateMatchScore "alpha beta" "alpha beta" = 1 := by
    simp [calculateMatchScore]
  have hpos : 0 < (findBestMatch "alpha beta" [tieClientA, tieClientB]).2 := by
    simp only [findBestMatch, List.foldl, bestStep, tieClientA, tieClientB, hz, ha]
    norm_num
  exact ⟨hpos, (findBestMatch_first_max "alpha beta" [tieClientA, tieClientB]).2.1 hpos⟩

/-! ## Sorting policy (FinancialStudio.tsx lines 58–99) -/

/-- Sort direction. -/
inductive SortDirection
  | asc
  | desc
  deriving DecidableEq, BEq

/-- A sort-key cell value: the fields the comparators read are either
strings or numbers. -/
inductive JsVal
  | str (s : String)
  | num (q : ℚ)
  deriving DecidableEq

/-- JavaScript `<` on strings: lexicographic by code unit. -/
def charListLt : List Char → List Char → Bool
  | [], [] => false
  | [], _ :: _ => true
  | _ :: _, [] => false
  | a :: as, b :: bs =>
    if a < b then true else if b < a then false else charListLt as bs

/-- JavaScript `<` between two like-typed cell values: code-unit
comparison for strings, numeric comparison for numbers (mixed-type
relational comparison on these views does not occur; both operands come
from the same column). -/
def jsValLt : JsVal → JsVal → Bool
  | .str a, .str b => charListLt a.toList b.toList
  | .num a, .num b => decide (a < b)
  | _, _ => false

/-- The `sortedEvents` comparator body (lines 61–69): compare the two
raw cell values, flipping the sign for descending order. -/
def eventCmp (direction : SortDirection) (a b : JsVal) : Int :=
  if jsValLt a b then (if direction = .asc then -1 else 1)
  else if jsValLt b a then (if direction = .asc then 1 else -1)
  else 0

/-- JavaScript `v || 0` on a cell value: the falsy empty string becomes
the number 0; other values pass through. -/
def jsValOrZero : JsVal → JsVal
  | .str s => if s = "" then .num 0 else .str s
  | .num q => .num q

/-- Lowercasing `toLowerCase` on a string cell (ASCII), identity on numbers, as the
services comparator applies after its `|| 0` coercion. -/
def lowerIfStr : JsVal → JsVal
  | .str s => .str (String.mk (s.toList.map Char.toLower))
  | .num q => .num q

/-- The `sortedServices` comparator body (lines 78–87): coerce falsy
values to 0, lowercase strings, then compare with direction. -/
def serviceCmp (direction : SortDirection) (a b : JsVal) : Int :=
  let valA := lowerIfStr (jsValOrZero a)
  let valB := lowerIfStr (jsValOrZero b)
  if jsValLt valA valB then (if direction = .asc then -1 else 1)
  else if jsValLt valB valA then (if direction = .asc then 1 else -1)
  else 0

/-- The `{key, direction}` pair held in `sortConfig`. -/
structure SortConfig where
  key : String
  direction : SortDirection
  deriving DecidableEq

/-- The toggle `requestSort` (lines 93–99): a repeated ascending selection of the
same key turns descending; anything else resets to ascending. -/
def requestSort (sortConfig : Option SortConfig) (key : String) : SortConfig :=
  let direction : SortDirection :=
    if (sortConfig.map (fun c => c.key == key && c.direction == SortDirection.asc)).getD
        false then
      .desc
    else .asc
  ⟨key, direction⟩

/-- C9 counterexample: the events comparator is case-sensitive.  On the
cells `"a"` and `"B"` it reports `"a"` greater (code-unit order), while
a case-insensitive comparison — as the services comparator performs —
reports `"a"` smaller; so "string values compared case-insensitively"
fails for the events list view. -/
theorem eventCmp_case_sensitive :
    eventCmp .asc (.str "a") (.str "B") = 1 ∧
    serviceCmp .asc (.str "a") (.str "B") = -1 ∧
    eventCmp .asc (.str "a") (.str "B") ≠ serviceCmp .asc (.str "a") (.str "B") := by
  refine ⟨?_, ?_, ?_⟩ <;> decide

/-- C9 amended: only the services comparator (`sortedServices`)
compares strings case-insensitively (and coerces falsy cells to 0); the
events comparator (`sortedEvents`) compares raw values, hence
case-sensitively for strings; both compare numbers directly; and
re-selecting the same key toggles the direction asc/desc
(`requestSort`), any other selection starting at asc. -/
theorem sortPolicy_spec :
    (∀ (direction : SortDirection) (p q : ℚ),
      serviceCmp direction (.num p) (.num q) = eventCmp direction (.num p) (.num q) ∧
      eventCmp .asc (.num p) (.num q) =
        (if p < q then -1 else if q < p then 1 else 0)) ∧
    (∀ (direction : SortDirection) (s t : String), s ≠ "" → t ≠ "" →
      serviceCmp direction (.str s) (.str t) =
        eventCmp direction (.str (String.mk (s.toList.map Char.toLower)))
          (.str (String.mk (t.toList.map Char.toLower)))) ∧
    (∀ (key : String) (d : SortDirection),
      requestSort (some ⟨key, d⟩) key =
        ⟨key, if d = .asc then .desc else .asc⟩) ∧
    (∀ (key key' : String) (d : SortDirection), key' ≠ key →
      requestSort (some ⟨key', d⟩) key = ⟨key, .asc⟩) ∧
    (∀ key : String, requestSort none key = ⟨key, .asc⟩) := by
  refine ⟨?_, ?_, ?_, ?_, ?_⟩
  · intro direction p q
    constructor
    · rfl
    · simp only [eventCmp, jsValLt]
      rcases lt_trichotomy p q with h | h | h
      · simp [h, asymm h]
      · subst h
        simp
      · simp [h, asymm h]
  · intro direction s t hs ht
    simp only [serviceCmp, jsValOrZero, if_neg hs, if_neg ht, lowerIfStr, eventCmp]
  · intro key d
    cases d <;> simp [requestSort] <;> decide
  · intro key key' d h
    simp [requestSort, h]
  · intro key
    rfl

/-- Witness for `sortPolicy_spec`: on the non-empty strings `"Alpha"`
and `"beta"` the services comparator agrees with the case-folded raw
comparison, and selecting `"name"` over a `"profit"` config resets the
direction to ascending. -/
theorem sortPolicy_spec_witness :
    ("Alpha" : String) ≠ "" ∧ ("beta" : String) ≠ "" ∧
    serviceCmp .asc (.str "Alpha") (.str "beta") =
      eventCmp .asc (.str (String.mk ("Alpha".toList.map Char.toLower)))
        (.str (String.mk ("beta".toList.map Char.toLower))) ∧
    ("profit" : String) ≠ "name" ∧
    requestSort (some ⟨"profit", SortDirection.desc⟩) "name" =
      ⟨"name", SortDirection.asc⟩ :=
  ⟨by decide, by decide,
    (sortPolicy_spec.2.1) .asc "Alpha" "beta" (by decide) (by decide),
    by decide,
    (sortPolicy_spec.2.2.2.1) "name" "profit" SortDirection.desc (by decide)⟩

end Jalsaat
